import Mathlib

/-!
Verification of the OCR pipeline in src/app.py (functions upload_pdf,
process_ocr, load_history, save_to_history, do_ocr) against its
natural-language specification.

Python strings are modelled as lists of characters (PyStr).  Remote
services (the Mistral client calls), the PIL image codec and base64
en/decoding are external to the repository; they enter the model as an
explicit oracle record (RemoteOps), and fallible remote calls return
Except values: an Except.error that escapes do_ocr models a Python
exception propagating uncaught out of do_ocr.  The list of NetCall
values returned alongside the result records which network calls were
issued, in order.  File-system state (the url_history.txt file behind
load_history/save_to_history) is threaded explicitly: the current
persisted history is an input, and the model of save_to_history returns
the new persisted history, exactly as the Python function returns the
list it wrote.
-/

/-- Python strings, modelled as lists of characters. -/
abbrev PyStr := List Char

/-- Coerce a Lean string literal into the PyStr model. -/
def pyStr (s : String) : PyStr := s.toList

/-- Whitespace test used by Python str.strip(): the six ASCII whitespace
characters (the model restricts Python's Unicode whitespace to ASCII). -/
def pyIsSpace (c : Char) : Bool :=
  c = ' ' || c = '\t' || c = '\n' || c = '\r' || c = Char.ofNat 11 || c = Char.ofNat 12

/-- Python str.strip(): drop leading and trailing whitespace. -/
def pyStrip (s : PyStr) : PyStr :=
  ((s.dropWhile pyIsSpace).reverse.dropWhile pyIsSpace).reverse

/-- Python str.lower() (ASCII case folding, matching Char.toLower). -/
def pyLower (s : PyStr) : PyStr := s.map Char.toLower

/-- Python str.split(sep) for a single-character separator: split at every
occurrence of the separator, keeping empty chunks. -/
def splitChar (sep : Char) : PyStr → List PyStr
  | [] => [[]]
  | c :: cs =>
    match splitChar sep cs with
    | [] => [[]]
    | a :: as => if c = sep then [] :: a :: as else (c :: a) :: as

/-- Python str.replace(old, new) scanning with explicit fuel: replace the
leftmost occurrence of old, continue after the inserted text, never
rescanning it.  The fuel argument only makes the recursion structural; with
fuel at least the length of the scanned list the behaviour is exact. -/
def pyReplaceFuel (old new : PyStr) : Nat → PyStr → PyStr
  | _, [] => []
  | 0, s => s
  | fuel + 1, c :: cs =>
    if !old.isEmpty && old.isPrefixOf (c :: cs) then
      new ++ pyReplaceFuel old new fuel ((c :: cs).drop old.length)
    else
      c :: pyReplaceFuel old new fuel cs

/-- Python str.replace(old, new): replace every leftmost non-overlapping
occurrence of old by new. -/
def pyReplace (old new s : PyStr) : PyStr := pyReplaceFuel old new s.length s

/-- Index of the last occurrence of a character, as Python str.rfind: the
0-based index of the last occurrence, or -1 when absent. -/
def pyRfind (s : PyStr) (c : Char) : Int :=
  match s.reverse.findIdx? (· = c) with
  | none => -1
  | some i => (s.length : Int) - 1 - (i : Int)

/-- Extension part of os.path.splitext(p): the suffix of p starting at the
last dot, provided that dot lies after the last path separator and the last
path component does not consist solely of leading dots up to it. -/
def splitextExt (p : PyStr) : PyStr :=
  let sepIndex := pyRfind p '/'
  let dotIndex := pyRfind p '.'
  if decide (sepIndex < dotIndex) &&
      (List.range p.length).any (fun k =>
        decide (sepIndex < (k : Int)) && decide ((k : Int) < dotIndex) &&
        (p.getD k '.' ≠ '.')) then
    p.drop dotIndex.toNat
  else []

/-- Final path component, as os.path.basename for POSIX paths. -/
def pyBasename (p : PyStr) : PyStr := (splitChar '/' p).getLastD []

/-- Document reference classified by do_ocr and sent to the OCR endpoint:
either an image URL or a generic document URL (src/app.py lines 78-81,
96, 103). -/
inductive DocumentSource where
  | image_url (url : PyStr)
  | document_url (url : PyStr)
  deriving DecidableEq

/-- One extracted image of an OCR response page: an id (the placeholder
token used inside the page markdown) and an optional base64 payload. -/
structure OCRImage where
  id : PyStr
  image_base64 : Option PyStr
  deriving DecidableEq

/-- One page of an OCR response: markdown text plus its ordered images. -/
structure OCRPage where
  markdown : PyStr
  images : List OCRImage
  deriving DecidableEq

/-- An OCR response: the ordered list of pages. -/
structure OCRResponse where
  pages : List OCRPage
  deriving DecidableEq

/-- An uploaded file as seen by do_ocr: its name and its raw bytes (the
bytes that open(file.name, "rb").read() would return). -/
structure FileUpload where
  name : PyStr
  content : List Nat
  deriving DecidableEq

/-- Network calls the pipeline can issue, recorded in order. -/
inductive NetCall where
  | upload
  | signedUrl
  | ocr
  deriving DecidableEq

/-- Oracles for everything outside the repository: the two Mistral file
endpoints, the OCR endpoint, and the two PIL/base64 codec chains.
pilReencodePNG maps a base64 payload to the base64 PNG re-encoding of the
image decoded from it (lines 128-133); imageFileToPngB64 maps raw image
file bytes to the base64 of their PNG re-encoding (lines 99-102). -/
structure RemoteOps where
  filesUpload : PyStr → List Nat → PyStr → Except PyStr PyStr
  getSignedUrl : PyStr → PyStr → Except PyStr PyStr
  ocrProcess : DocumentSource → PyStr → Except PyStr OCRResponse
  pilReencodePNG : PyStr → PyStr
  imageFileToPngB64 : List Nat → PyStr

/-- src/app.py line 11. -/
def VALID_DOCUMENT_EXTENSIONS : List PyStr := [pyStr ".pdf"]

/-- src/app.py line 12. -/
def VALID_IMAGE_EXTENSIONS : List PyStr := [pyStr ".jpg", pyStr ".jpeg", pyStr ".png"]

/-- save_to_history (src/app.py lines 41-59).  The current persisted
history (what load_history would return) is passed in; the returned list is
both the function's return value and the newly persisted history.  A None,
empty or whitespace-only url leaves the history untouched and returns it. -/
def save_to_history (hist : List PyStr) (url : Option PyStr) : List PyStr :=
  match url with
  | none => hist
  | some u =>
    if u.isEmpty || (pyStrip u).isEmpty then hist
    else
      let history := if u ∈ hist then hist.erase u else hist
      (u :: history).take 10

/-- upload_pdf (src/app.py lines 15-22): upload the bytes, then exchange
the file handle for a signed URL.  Neither call is guarded by an exception
handler; an error from either oracle is returned as Except.error together
with the calls issued so far. -/
def upload_pdf (ops : RemoteOps) (content : List Nat) (filename : PyStr)
    (api_key : PyStr) : Except PyStr PyStr × List NetCall :=
  match ops.filesUpload filename content api_key with
  | .error e => (.error e, [.upload])
  | .ok fileId =>
    match ops.getSignedUrl fileId api_key with
    | .error e => (.error e, [.upload, .signedUrl])
    | .ok u => (.ok u, [.upload, .signedUrl])

/-- URL classification of do_ocr (src/app.py lines 74-81): lower-case the
URL, test it against the image extensions; build an image_url source for a
match and a document_url source otherwise, in both cases from the stripped
original URL. -/
def classify_url (u : PyStr) : DocumentSource :=
  if VALID_IMAGE_EXTENSIONS.any (fun ext => ext.isSuffixOf (pyLower u)) then
    .image_url (pyStrip u)
  else
    .document_url (pyStrip u)

/-- Payload selection of the assembler (src/app.py lines 126-127): when the
base64 string contains a comma, keep split(",")[1], the segment between the
first and the second comma. -/
def stripB64Header (b : PyStr) : PyStr :=
  if b.contains ',' then (splitChar ',' b).getD 1 [] else b

/-- Placeholder token of an image id inside page markdown. -/
def placeholder (i : PyStr) : PyStr :=
  pyStr "![" ++ i ++ pyStr "](" ++ i ++ pyStr ")"

/-- Inline data URL built for an image payload (src/app.py line 134). -/
def dataUrlFor (ops : RemoteOps) (b : PyStr) : PyStr :=
  pyStr "data:image/png;base64," ++ ops.pilReencodePNG (stripB64Header b)

/-- Replacement text substituted for a placeholder (src/app.py line 136). -/
def substFor (ops : RemoteOps) (i b : PyStr) : PyStr :=
  pyStr "![" ++ i ++ pyStr "](" ++ dataUrlFor ops b ++ pyStr ")"

/-- Warning line appended when an image has no payload (line 139). -/
def warningLine (i : PyStr) : PyStr :=
  pyStr "\n\n[Image Warning: No base64 data for " ++ i ++ pyStr "]"

/-- Bracketed core of the warning line, without the leading blank line. -/
def warningCore (i : PyStr) : PyStr :=
  pyStr "[Image Warning: No base64 data for " ++ i ++ pyStr "]"

/-- Python truthiness of the optional base64 field, as tested by
`if img.image_base64:` at src/app.py line 124: None and the empty string
are falsy, every non-empty string is truthy. -/
def pyTruthyB64 : Option PyStr → Bool
  | none => false
  | some b => !b.isEmpty

/-- One iteration of the assembler loop (src/app.py lines 123-139) over the
state (rendered markdown, collected images).  The branch condition is
Python truthiness of image_base64: a missing payload and an empty-string
payload both take the warning branch.  An image in the collected list is
represented by the base64 payload handed to base64.b64decode. -/
def processImage (ops : RemoteOps) (st : PyStr × List PyStr) (img : OCRImage) :
    PyStr × List PyStr :=
  if pyTruthyB64 img.image_base64 then
    let b := img.image_base64.getD []
    (pyReplace (placeholder img.id) (substFor ops img.id b) st.1,
     st.2 ++ [stripB64Header b])
  else
    (st.1 ++ warningLine img.id, st.2)

/-- Result assembly of do_ocr (src/app.py lines 117-143): join the page
markdowns with a blank line, run the substitution loop over every image of
every page, and return (stripped plain text, stripped rendered markdown,
collected images). -/
def assemble (ops : RemoteOps) (resp : OCRResponse) : PyStr × PyStr × List PyStr :=
  let markdown_text := List.intercalate (pyStr "\n\n") (resp.pages.map (·.markdown))
  let st := resp.pages.foldl (fun st page => page.images.foldl (processImage ops) st)
    (markdown_text, ([] : List PyStr))
  (pyStrip markdown_text, pyStrip st.1, st.2)

/-- All images of a page list, in page order then within-page order. -/
def pagesImages : List OCRPage → List OCRImage
  | [] => []
  | p :: ps => p.images ++ pagesImages ps

/-- Tail of do_ocr from the OCR call on (src/app.py lines 109-143): the
only try/except of the pipeline wraps this call; an oracle error becomes
the Error-processing-OCR tuple, a success is assembled. -/
def finish_ocr (ops : RemoteOps) (api_key : PyStr) (hist : List PyStr)
    (src : DocumentSource) :
    Except PyStr (PyStr × PyStr × List PyStr × List PyStr) × List NetCall :=
  match ops.ocrProcess src api_key with
  | .error e =>
    (.ok (pyStr "Error processing OCR: " ++ e, [], [], hist), [.ocr])
  | .ok resp =>
    let r := assemble ops resp
    (.ok (r.1, r.2.1, r.2.2, hist), [.ocr])

/-- Unsupported-file-type message (src/app.py line 105).  Python joins a
set there, whose iteration order is unspecified; the model fixes the
declaration order of the two extension sets. -/
def unsupportedMsg : PyStr :=
  pyStr "Error: Unsupported file type. Supported types: .pdf, .jpg, .jpeg, .png"

/-- do_ocr (src/app.py lines 61-143).  api_key is os.environ.get("MISTRAL")
(None when unset), hist the persisted history at entry.  The result is the
returned 4-tuple (text, markdown, images, history) — or Except.error e when
a Python exception e escapes do_ocr — paired with the network calls issued. -/
def do_ocr (ops : RemoteOps) (api_key : Option PyStr) (hist : List PyStr)
    (input_type : PyStr) (url : Option PyStr) (file : Option FileUpload) :
    Except PyStr (PyStr × PyStr × List PyStr × List PyStr) × List NetCall :=
  if (match api_key with | none => true | some k => k.isEmpty) then
    (.ok (pyStr "Error: MISTRAL API key not found in environment variables.",
          pyStr "Please set your MISTRAL API key as an environment variable named 'MISTRAL'.",
          [], hist), [])
  else
    let key := api_key.getD []
    if input_type = pyStr "URL" then
      if (match url with | none => true | some u => u.isEmpty || (pyStrip u).isEmpty) then
        (.ok (pyStr "Please provide a valid URL.", [], [], hist), [])
      else
        let u := url.getD []
        let hist1 := save_to_history hist (some u)
        finish_ocr ops key hist1 (classify_url u)
    else if input_type = pyStr "File upload" then
      match file with
      | none => (.ok (pyStr "Please upload a file.", [], [], hist), [])
      | some f =>
        let file_name := pyLower f.name
        let file_extension := splitextExt file_name
        if file_extension ∈ VALID_DOCUMENT_EXTENSIONS then
          match upload_pdf ops f.content (pyBasename file_name) key with
          | (.error e, tr) => (.error e, tr)
          | (.ok signed_url, tr) =>
            let r := finish_ocr ops key hist (.document_url signed_url)
            (r.1, tr ++ r.2)
        else if file_extension ∈ VALID_IMAGE_EXTENSIONS then
          finish_ocr ops key hist
            (.image_url (pyStr "data:image/png;base64," ++ ops.imageFileToPngB64 f.content))
        else
          (.ok (unsupportedMsg, [], [], hist), [])
    else
      (.ok (pyStr "Invalid input type.", [], [], hist), [])

/-- Payload selection following the specification's words instead of the
source: strip everything up to and including the last comma. -/
def stripAfterLastComma (b : PyStr) : PyStr :=
  if b.contains ',' then (splitChar ',' b).getLastD [] else b

/-- Concrete oracle whose every remote call fails; used for inputs whose
behaviour must not depend on the network. -/
def noNetOps : RemoteOps where
  filesUpload := fun _ _ _ => .error (pyStr "upload refused")
  getSignedUrl := fun _ _ => .error (pyStr "no signed url")
  ocrProcess := fun _ _ => .error (pyStr "no network")
  pilReencodePNG := fun s => s
  imageFileToPngB64 := fun _ => []

/-- Concrete oracle whose upload endpoints succeed while the OCR endpoint
fails; exercises the pdf path up to and including the OCR call. -/
def uploadOnlyOps : RemoteOps where
  filesUpload := fun _ _ _ => .ok (pyStr "fid-1")
  getSignedUrl := fun _ _ => .ok (pyStr "https://signed/fid-1")
  ocrProcess := fun _ _ => .error (pyStr "ocr down")
  pilReencodePNG := fun s => s
  imageFileToPngB64 := fun _ => []

/-- Markdown text built from an alternating shape: the separator placed
between consecutive segments.  joinSep sep [a] = a, joinSep sep [a, c]
= a ++ sep ++ c, joinSep sep [a, m, c] = a ++ sep ++ m ++ sep ++ c, and so
on: a segment list of length n + 1 describes a text with exactly n
occurrences of the separator. -/
def joinSep (sep : PyStr) : List PyStr → PyStr
  | [] => []
  | [x] => x
  | x :: y :: rest => x ++ sep ++ joinSep sep (y :: rest)

/-- Identifier charset of OCR placeholder ids: alphanumerics plus
dash, underscore and dot. -/
def cleanIdChar (c : Char) : Bool := c.isAlphanum || c = '-' || c = '_' || c = '.'

/-- An id over the identifier charset. -/
def cleanId (i : PyStr) : Bool := i.all cleanIdChar

theorem pyReplaceFuel_congr (old new : PyStr) :
    ∀ f g s, s.length ≤ f → s.length ≤ g →
      pyReplaceFuel old new f s = pyReplaceFuel old new g s := by
  intro f
  induction f with
  | zero =>
    intro g s hf _
    have hs : s = [] := List.eq_nil_of_length_eq_zero (Nat.le_zero.mp hf)
    subst hs
    cases g <;> rfl
  | succ f ih =>
    intro g s hf hg
    match s, g with
    | [], g => cases g <;> rfl
    | c :: cs, 0 => simp at hg
    | c :: cs, g + 1 =>
      simp only [pyReplaceFuel]
      by_cases h : (!old.isEmpty && old.isPrefixOf (c :: cs)) = true
      · rw [if_pos h, if_pos h]
        have hom : 1 ≤ old.length := by
          rcases Bool.and_eq_true .. |>.mp h with ⟨h1, _⟩
          cases old with
          | nil => simp at h1
          | cons _ _ => simp
        have hlen : ((c :: cs).drop old.length).length ≤ cs.length := by
          rw [List.length_drop]
          simp only [List.length_cons]
          omega
        have hf' : ((c :: cs).drop old.length).length ≤ f := by
          have : cs.length ≤ f := by simpa using hf
          omega
        have hg' : ((c :: cs).drop old.length).length ≤ g := by
          have : cs.length ≤ g := by simpa using hg
          omega
        rw [ih _ _ hf' hg']
      · rw [if_neg h, if_neg h]
        have hf' : cs.length ≤ f := by simpa using hf
        have hg' : cs.length ≤ g := by simpa using hg
        rw [ih _ _ hf' hg']

theorem pyReplace_nil (old new : PyStr) : pyReplace old new [] = [] := rfl

theorem pyReplace_cons_pos (old new : PyStr) (c : Char) (cs : PyStr)
    (h1 : old ≠ []) (h2 : old <+: c :: cs) :
    pyReplace old new (c :: cs) = new ++ pyReplace old new ((c :: cs).drop old.length) := by
  have hb : (!old.isEmpty && old.isPrefixOf (c :: cs)) = true := by
    simp [List.isEmpty_iff, h1, List.isPrefixOf_iff_prefix, h2]
  have hom : 1 ≤ old.length := by
    cases old with
    | nil => exact absurd rfl h1
    | cons _ _ => simp
  show pyReplaceFuel old new (cs.length + 1) (c :: cs) = _
  simp only [pyReplaceFuel, hb, if_true]
  congr 1
  apply pyReplaceFuel_congr
  · rw [List.length_drop]
    simp only [List.length_cons]
    omega
  · exact Nat.le_refl _

theorem pyReplace_cons_neg (old new : PyStr) (c : Char) (cs : PyStr)
    (h : ¬ (old ≠ [] ∧ old <+: c :: cs)) :
    pyReplace old new (c :: cs) = c :: pyReplace old new cs := by
  have hb : (!old.isEmpty && old.isPrefixOf (c :: cs)) = false := by
    rw [Bool.and_eq_false_iff]
    by_cases h1 : old = []
    · subst h1; simp
    · right
      rw [Bool.eq_false_iff]
      intro hp
      exact h ⟨h1, List.isPrefixOf_iff_prefix.mp hp⟩
  show pyReplaceFuel old new (cs.length + 1) (c :: cs) = _
  simp only [pyReplaceFuel, hb, if_false, Bool.false_eq_true]
  rfl

theorem infix_append_left {w t : PyStr} (s : PyStr) (h : w <:+: t) : w <:+: s ++ t := by
  obtain ⟨u, v, huv⟩ := h
  exact ⟨s ++ u, v, by rw [← huv]; simp [List.append_assoc]⟩

theorem infix_extend_right {w s : PyStr} (t : PyStr) (h : w <:+: s) : w <:+: s ++ t := by
  obtain ⟨u, v, huv⟩ := h
  exact ⟨u, v ++ t, by rw [← huv]; simp [List.append_assoc]⟩

theorem pyReplace_of_no_occurrence (old new : PyStr) :
    ∀ s, ¬ old <:+: s → pyReplace old new s = s := by
  intro s
  induction s with
  | nil => intro _; rfl
  | cons c cs ih =>
    intro h
    rw [pyReplace_cons_neg old new c cs]
    · rw [ih (fun hi => h (List.infix_cons_iff.mpr (Or.inr hi)))]
    · rintro ⟨_, hp⟩
      exact h hp.isInfix

theorem pyReplace_append_self (old new y : PyStr) (h1 : old ≠ []) :
    pyReplace old new (old ++ y) = new ++ pyReplace old new y := by
  cases old with
  | nil => exact absurd rfl h1
  | cons a t =>
    have hsh : (a :: t) ++ y = a :: (t ++ y) := by simp
    rw [hsh, pyReplace_cons_pos (a :: t) new a (t ++ y) h1 ⟨y, by simp⟩]
    congr 1
    rw [← hsh, List.drop_left]

theorem pyReplace_head_split (old new : PyStr) (h : Char) (hh : old.head? = some h) :
    ∀ x y, h ∉ x → pyReplace old new (x ++ old ++ y) = x ++ new ++ pyReplace old new y := by
  intro x
  induction x with
  | nil =>
    intro y _
    simp only [List.nil_append]
    exact pyReplace_append_self old new y (by rintro rfl; simp at hh)
  | cons c x' ih =>
    intro y hmem
    have hcx : c ≠ h := fun hc => hmem (by simp [hc])
    have hstep : pyReplace old new (c :: (x' ++ old ++ y))
        = c :: pyReplace old new (x' ++ old ++ y) := by
      apply pyReplace_cons_neg
      rintro ⟨hne, hp⟩
      cases old with
      | nil => exact hne rfl
      | cons a t =>
        have ha : a = h := by simpa using hh
        have hac := (List.cons_prefix_cons.mp hp).1
        exact hcx (by rw [← hac, ha])
    calc pyReplace old new ((c :: x') ++ old ++ y)
        = pyReplace old new (c :: (x' ++ old ++ y)) := by simp
      _ = c :: pyReplace old new (x' ++ old ++ y) := hstep
      _ = c :: (x' ++ new ++ pyReplace old new y) := by
            rw [ih y (fun hm => hmem (List.mem_cons_of_mem _ hm))]
      _ = (c :: x') ++ new ++ pyReplace old new y := by simp

theorem pyReplace_preserves_leading (old new : PyStr) (h : Char)
    (hh : old.head? = some h) :
    ∀ w s, h ∉ w → w <+: s → w <+: pyReplace old new s := by
  intro w
  induction w with
  | nil => intro s _ _; exact List.nil_prefix
  | cons a w' ih =>
    intro s hmem hp
    cases s with
    | nil => simp at hp
    | cons b s' =>
      obtain ⟨hab, hw'⟩ := List.cons_prefix_cons.mp hp
      subst hab
      rw [pyReplace_cons_neg]
      · exact List.cons_prefix_cons.mpr ⟨rfl, ih s' (fun hm => hmem (List.mem_cons_of_mem _ hm)) hw'⟩
      · rintro ⟨hne, hpre⟩
        cases old with
        | nil => exact hne rfl
        | cons o t =>
          have ho : o = h := by simpa using hh
          have := (List.cons_prefix_cons.mp hpre).1
          exact hmem (by simp [← this, ho])

theorem infix_append_right_of_head (w : PyStr) (c : Char)
    (hw : w.head? = some c) :
    ∀ y z, c ∉ y → w <:+: y ++ z → w <:+: z := by
  intro y
  induction y with
  | nil => intro z _ h; simpa using h
  | cons a y' ih =>
    intro z hc h
    rw [List.cons_append] at h
    rcases List.infix_cons_iff.mp h with hp | hi
    · cases w with
      | nil => simp at hw
      | cons b w' =>
        have hba := (List.cons_prefix_cons.mp hp).1
        have hbc : b = c := by simpa using hw
        have hca : c = a := by rw [← hbc, hba]
        exact absurd (by simp [hca]) hc
    · exact ih z (fun hm => hc (List.mem_cons_of_mem _ hm)) hi

theorem infix_append_of_single_head (w : PyStr) (c : Char)
    (hw : w.head? = some c) :
    ∀ y z, y.head? = some c → c ∉ y.tail → w <:+: y ++ z → w <+: y ++ z ∨ w <:+: z := by
  intro y z hy hyt h
  cases y with
  | nil => exact Or.inr (by simpa using h)
  | cons a y' =>
    rw [List.cons_append] at h
    rcases List.infix_cons_iff.mp h with hp | hi
    · exact Or.inl (by rw [List.cons_append]; exact hp)
    · exact Or.inr (infix_append_right_of_head w c hw y' z (by simpa using hyt) hi)

theorem pyReplace_preserves_marker (old new w : PyStr) (hc wc : Char)
    (hh : old.head? = some hc) (hwm : hc ∉ w)
    (hwh : w.head? = some wc) (hnc : wc ∉ old) :
    ∀ n s, s.length ≤ n → w <:+: s → w <:+: pyReplace old new s := by
  intro n
  induction n with
  | zero =>
    intro s hl h
    have hs : s = [] := List.eq_nil_of_length_eq_zero (Nat.le_zero.mp hl)
    subst hs
    rw [pyReplace_nil]
    exact h
  | succ n ih =>
    intro s hl h
    cases s with
    | nil =>
      rw [pyReplace_nil]
      exact h
    | cons c cs =>
      by_cases hmatch : old ≠ [] ∧ old <+: c :: cs
      · obtain ⟨rest, hrest⟩ := hmatch.2
        rw [pyReplace_cons_pos old new c cs hmatch.1 hmatch.2]
        have hdrop : (c :: cs).drop old.length = rest := by
          rw [← hrest, List.drop_left]
        have h2 : w <:+: old ++ rest := by rw [hrest]; exact h
        have h3 : w <:+: rest := infix_append_right_of_head w wc hwh old rest hnc h2
        have hrl : rest.length ≤ n := by
          have hlen : old.length + rest.length = cs.length + 1 := by
            have := congrArg List.length hrest
            simpa using this
          have hom : 1 ≤ old.length := by
            cases hcase : old with
            | nil => exact absurd hcase hmatch.1
            | cons _ _ => simp
          simp only [List.length_cons] at hl
          omega
        rw [hdrop]
        exact infix_append_left new (ih rest hrl h3)
      · rw [pyReplace_cons_neg old new c cs hmatch]
        rcases List.infix_cons_iff.mp h with hp | hi
        · cases w with
          | nil => simp at hwh
          | cons b w' =>
            obtain ⟨hbc, hw'⟩ := List.cons_prefix_cons.mp hp
            subst hbc
            have hpres : w' <+: pyReplace old new cs :=
              pyReplace_preserves_leading old new hc hh w' cs
                (fun hm => hwm (List.mem_cons_of_mem _ hm)) hw'
            exact (List.cons_prefix_cons.mpr ⟨rfl, hpres⟩).isInfix
        · have hcl : cs.length ≤ n := by
            simp only [List.length_cons] at hl
            omega
          exact List.infix_cons_iff.mpr (Or.inr (ih cs hcl hi))

theorem placeholder_eq (i : PyStr) :
    placeholder i = '!' :: '[' :: (i ++ ']' :: '(' :: (i ++ [')'])) := by
  have h1 : pyStr "![" = ['!', '['] := rfl
  have h2 : pyStr "](" = [']', '('] := rfl
  have h3 : pyStr ")" = [')'] := rfl
  rw [placeholder, h1, h2, h3]
  simp

theorem placeholder_head (i : PyStr) : (placeholder i).head? = some '!' := by
  rw [placeholder_eq]
  rfl

theorem placeholder_ne_nil (i : PyStr) : placeholder i ≠ [] := by
  rw [placeholder_eq]
  simp

theorem cleanId_not_mem (i : PyStr) (c : Char) (hi : cleanId i = true)
    (hc : cleanIdChar c = false) : c ∉ i := by
  intro hm
  have := List.all_eq_true.mp hi c hm
  rw [hc] at this
  exact absurd this (by simp)

theorem not_mem_placeholder_of_clean (i : PyStr) (c : Char) (hi : cleanId i = true)
    (hc : cleanIdChar c = false) (h1 : c ≠ '!') (h2 : c ≠ '[') (h3 : c ≠ ']')
    (h4 : c ≠ '(') (h5 : c ≠ ')') : c ∉ placeholder i := by
  rw [placeholder_eq]
  intro hm
  simp only [List.mem_cons, List.mem_append] at hm
  rcases hm with h | h | (h | h | h | (h | h)) <;>
    first
      | exact h1 h
      | exact h2 h
      | exact h3 h
      | exact h4 h
      | exact h5 h
      | exact cleanId_not_mem i c hi hc h
      | exact absurd (by simpa using h) h5

theorem bang_not_mem_placeholder_tail (i : PyStr) (hi : cleanId i = true) :
    '!' ∉ (placeholder i).tail := by
  rw [placeholder_eq]
  intro hm
  simp only [List.tail_cons, List.mem_cons, List.mem_append] at hm
  rcases hm with h | (h | h | h | (h | h)) <;>
    first
      | exact absurd h (by decide)
      | exact cleanId_not_mem i '!' hi (by decide) h

theorem clean_rbrack_inj :
    ∀ (a b u v : PyStr), ']' ∉ a → ']' ∉ b →
      (a ++ ']' :: u) <+: (b ++ ']' :: v) → a = b := by
  intro a
  induction a with
  | nil =>
    intro b u v _ hb h
    cases b with
    | nil => rfl
    | cons d b' =>
      simp only [List.nil_append, List.cons_append] at h
      have hd := (List.cons_prefix_cons.mp h).1
      exact absurd (by simp [← hd]) hb
  | cons c a' ih =>
    intro b u v ha hb h
    cases b with
    | nil =>
      simp only [List.cons_append, List.nil_append] at h
      have hc := (List.cons_prefix_cons.mp h).1
      exact absurd (by simp [hc]) ha
    | cons d b' =>
      simp only [List.cons_append] at h
      obtain ⟨hcd, hrest⟩ := List.cons_prefix_cons.mp h
      have := ih b' u v (fun hm => ha (List.mem_cons_of_mem _ hm))
        (fun hm => hb (List.mem_cons_of_mem _ hm)) hrest
      rw [hcd, this]

theorem placeholder_prefix_inj (i i' t : PyStr) (hi : cleanId i = true)
    (hi' : cleanId i' = true) (h : placeholder i <+: placeholder i' ++ t) : i = i' := by
  rw [placeholder_eq, placeholder_eq] at h
  simp only [List.cons_append] at h
  obtain ⟨-, h⟩ := List.cons_prefix_cons.mp h
  obtain ⟨-, h⟩ := List.cons_prefix_cons.mp h
  have hre : (i' ++ ']' :: '(' :: (i' ++ [')'])) ++ t
      = i' ++ ']' :: ('(' :: (i' ++ [')']) ++ t) := by simp
  rw [hre] at h
  exact clean_rbrack_inj i i' _ _ (cleanId_not_mem i ']' hi (by decide))
    (cleanId_not_mem i' ']' hi' (by decide)) h

theorem pyReplace_preserves_other_placeholder (i i' r : PyStr)
    (hi : cleanId i = true) (hi' : cleanId i' = true) (hne : i ≠ i') :
    ∀ n s, s.length ≤ n → placeholder i <:+: s →
      placeholder i <:+: pyReplace (placeholder i') r s := by
  intro n
  induction n with
  | zero =>
    intro s hl h
    have hs : s = [] := List.eq_nil_of_length_eq_zero (Nat.le_zero.mp hl)
    subst hs
    rw [pyReplace_nil]
    exact h
  | succ n ih =>
    intro s hl h
    cases s with
    | nil =>
      rw [pyReplace_nil]
      exact h
    | cons c cs =>
      by_cases hmatch : placeholder i' ≠ [] ∧ placeholder i' <+: c :: cs
      · obtain ⟨rest, hrest⟩ := hmatch.2
        rw [pyReplace_cons_pos _ r c cs hmatch.1 hmatch.2]
        have hdrop : (c :: cs).drop (placeholder i').length = rest := by
          rw [← hrest, List.drop_left]
        have h2 : placeholder i <:+: placeholder i' ++ rest := by rw [hrest]; exact h
        have h3 : placeholder i <:+: rest := by
          rcases infix_append_of_single_head (placeholder i) '!' (placeholder_head i)
              (placeholder i') rest (placeholder_head i')
              (bang_not_mem_placeholder_tail i' hi') h2 with hp | hinf
          · exact absurd (placeholder_prefix_inj i i' rest hi hi' hp) hne
          · exact hinf
        have hrl : rest.length ≤ n := by
          have hlen : (placeholder i').length + rest.length = cs.length + 1 := by
            have := congrArg List.length hrest
            simpa using this
          have hom : 1 ≤ (placeholder i').length := by
            rw [placeholder_eq]
            simp
          simp only [List.length_cons] at hl
          omega
        rw [hdrop]
        exact infix_append_left r (ih rest hrl h3)
      · rw [pyReplace_cons_neg _ r c cs hmatch]
        rcases List.infix_cons_iff.mp h with hp | hi2
        · rw [placeholder_eq] at hp
          obtain ⟨hbc, hrest⟩ := List.cons_prefix_cons.mp hp
          have hpres : '[' :: (i ++ ']' :: '(' :: (i ++ [')'])) <+: pyReplace (placeholder i') r cs :=
            pyReplace_preserves_leading (placeholder i') r '!' (placeholder_head i') _ cs
              (bang_not_mem_placeholder_tail i (by exact hi) ∘ (by
                rw [placeholder_eq]
                simp only [List.tail_cons]
                exact fun hm => hm)) hrest
          rw [placeholder_eq]
          subst hbc
          exact (List.cons_prefix_cons.mpr ⟨rfl, hpres⟩).isInfix
        · have hcl : cs.length ≤ n := by
            simp only [List.length_cons] at hl
            omega
          exact List.infix_cons_iff.mpr (Or.inr (ih cs hcl hi2))

theorem warningLine_decomp (i : PyStr) : warningLine i = pyStr "\n\n" ++ warningCore i := by
  unfold warningLine warningCore
  have h : pyStr "\n\n[Image Warning: No base64 data for "
      = pyStr "\n\n" ++ pyStr "[Image Warning: No base64 data for " := by decide
  rw [h]
  simp

theorem warningLine_head (i : PyStr) : (warningLine i).head? = some '\n' := by
  rw [warningLine_decomp]
  rfl

theorem bang_not_mem_warningLine (i : PyStr) (hi : cleanId i = true) :
    '!' ∉ warningLine i := by
  intro hm
  unfold warningLine at hm
  simp only [List.mem_append] at hm
  rcases hm with (h | h) | h
  · exact absurd h (by decide)
  · exact cleanId_not_mem i '!' hi (by decide) h
  · exact absurd h (by decide)

theorem warningCore_infix_line (i : PyStr) : warningCore i <:+: warningLine i := by
  rw [warningLine_decomp]
  exact infix_append_left _ ⟨[], [], by simp⟩

theorem warningCore_head (i : PyStr) : (warningCore i).head? = some '[' := by
  unfold warningCore
  rfl

theorem warningCore_getLast (i : PyStr) : (warningCore i).getLast? = some ']' := by
  have hb : pyStr "]" ≠ [] := by decide
  unfold warningCore
  rw [List.append_assoc,
    List.getLast?_append_of_ne_nil _ (fun hcon => hb (List.append_eq_nil.mp hcon).2),
    List.getLast?_append_of_ne_nil _ hb]
  rfl

theorem infix_dropWhile_of_head (f : Char → Bool) (w : PyStr) (c : Char)
    (hwh : w.head? = some c) (hc : f c = false) :
    ∀ s, w <:+: s → w <:+: s.dropWhile f := by
  intro s
  induction s with
  | nil => intro h; exact h
  | cons a s' ih =>
    intro h
    rw [List.dropWhile_cons]
    by_cases hfa : f a = true
    · rw [if_pos hfa]
      rcases List.infix_cons_iff.mp h with hp | hi
      · cases w with
        | nil => simp at hwh
        | cons b w' =>
          have hba := (List.cons_prefix_cons.mp hp).1
          have hbc : b = c := by simpa using hwh
          rw [hbc] at hba
          rw [← hba] at hfa
          exact absurd hfa (by simp [hc])
      · exact ih hi
    · rw [if_neg hfa]
      exact h

theorem infix_pyStrip (w s : PyStr) (c d : Char)
    (hwh : w.head? = some c) (hc : pyIsSpace c = false)
    (hwl : w.getLast? = some d) (hd : pyIsSpace d = false)
    (h : w <:+: s) : w <:+: pyStrip s := by
  unfold pyStrip
  have h1 : w <:+: s.dropWhile pyIsSpace := infix_dropWhile_of_head pyIsSpace w c hwh hc s h
  have h2 : w.reverse <:+: (s.dropWhile pyIsSpace).reverse := List.reverse_infix.mpr h1
  have hrh : w.reverse.head? = some d := by rw [List.head?_reverse]; exact hwl
  have h3 := infix_dropWhile_of_head pyIsSpace w.reverse d hrh hd _ h2
  exact List.reverse_infix.mp (by rw [List.reverse_reverse]; exact h3)

theorem pyTruthyB64_true_iff (o : Option PyStr) :
    pyTruthyB64 o = true ↔ ∃ b, o = some b ∧ b.isEmpty = false := by
  cases o <;> simp [pyTruthyB64]

theorem processImage_true (ops : RemoteOps) (st : PyStr × List PyStr) (img : OCRImage)
    (b : PyStr) (hb : img.image_base64 = some b) (hbe : b.isEmpty = false) :
    processImage ops st img
      = (pyReplace (placeholder img.id) (substFor ops img.id b) st.1,
         st.2 ++ [stripB64Header b]) := by
  simp [processImage, pyTruthyB64, hb, hbe]

theorem processImage_false (ops : RemoteOps) (st : PyStr × List PyStr) (img : OCRImage)
    (hb : pyTruthyB64 img.image_base64 = false) :
    processImage ops st img = (st.1 ++ warningLine img.id, st.2) := by
  simp [processImage, hb]

theorem assemble_fold_flat (ops : RemoteOps) :
    ∀ (pages : List OCRPage) (st : PyStr × List PyStr),
      pages.foldl (fun st page => page.images.foldl (processImage ops) st) st
        = (pagesImages pages).foldl (processImage ops) st := by
  intro pages
  induction pages with
  | nil => intro st; rfl
  | cons p ps ih =>
    intro st
    simp only [List.foldl_cons, pagesImages, List.foldl_append, ih]

theorem foldl_processImage_preserves_warning (ops : RemoteOps) (w : PyStr)
    (hwh : w.head? = some '\n') (hw : '!' ∉ w) :
    ∀ (imgs : List OCRImage) (st : PyStr × List PyStr),
      (∀ img ∈ imgs, cleanId img.id = true) → w <:+: st.1 →
      w <:+: (imgs.foldl (processImage ops) st).1 := by
  intro imgs
  induction imgs with
  | nil => intro st _ h; exact h
  | cons img rest ih =>
    intro st hclean h
    rw [List.foldl_cons]
    apply ih _ (fun x hx => hclean x (List.mem_cons_of_mem _ hx))
    have hcl : cleanId img.id = true := hclean img (List.mem_cons_self _ _)
    cases ht : pyTruthyB64 img.image_base64 with
    | false =>
      rw [processImage_false ops st img ht]
      exact infix_extend_right _ h
    | true =>
      obtain ⟨b, hb, hbe⟩ := (pyTruthyB64_true_iff _).mp ht
      rw [processImage_true ops st img b hb hbe]
      exact pyReplace_preserves_marker (placeholder img.id) (substFor ops img.id b) w '!' '\n'
        (placeholder_head _) hw hwh
        (not_mem_placeholder_of_clean img.id '\n' hcl (by decide) (by decide) (by decide)
          (by decide) (by decide) (by decide))
        st.1.length st.1 (Nat.le_refl _) h

theorem foldl_processImage_preserves_placeholder (ops : RemoteOps) (i : PyStr)
    (hi : cleanId i = true) :
    ∀ (imgs : List OCRImage) (st : PyStr × List PyStr),
      (∀ img ∈ imgs, cleanId img.id = true ∧ img.id ≠ i) →
      placeholder i <:+: st.1 →
      placeholder i <:+: (imgs.foldl (processImage ops) st).1 := by
  intro imgs
  induction imgs with
  | nil => intro st _ h; exact h
  | cons img rest ih =>
    intro st hclean h
    rw [List.foldl_cons]
    apply ih _ (fun x hx => hclean x (List.mem_cons_of_mem _ hx))
    obtain ⟨hcl, hne⟩ := hclean img (List.mem_cons_self _ _)
    cases ht : pyTruthyB64 img.image_base64 with
    | false =>
      rw [processImage_false ops st img ht]
      exact infix_extend_right _ h
    | true =>
      obtain ⟨b, hb, hbe⟩ := (pyTruthyB64_true_iff _).mp ht
      rw [processImage_true ops st img b hb hbe]
      exact pyReplace_preserves_other_placeholder i img.id (substFor ops img.id b)
        hi hcl (fun he => hne he.symm) st.1.length st.1 (Nat.le_refl _) h

theorem placeholder_getLast (i : PyStr) : (placeholder i).getLast? = some ')' := by
  unfold placeholder
  rw [List.getLast?_append_of_ne_nil _ (by decide : pyStr ")" ≠ [])]
  rfl

theorem assemble_rendered (ops : RemoteOps) (resp : OCRResponse) :
    (assemble ops resp).2.1
      = pyStrip ((pagesImages resp.pages).foldl (processImage ops)
          (List.intercalate (pyStr "\n\n") (resp.pages.map (·.markdown)),
           ([] : List PyStr))).1 := by
  simp only [assemble, assemble_fold_flat]

theorem assemble_warning_present (ops : RemoteOps) (resp : OCRResponse) (img : OCRImage)
    (hmem : img ∈ pagesImages resp.pages) (hb : pyTruthyB64 img.image_base64 = false)
    (hclean : ∀ im ∈ pagesImages resp.pages, cleanId im.id = true) :
    warningCore img.id <:+: (assemble ops resp).2.1 := by
  obtain ⟨pre, post, hsplit⟩ := List.append_of_mem hmem
  rw [assemble_rendered, hsplit, List.foldl_append, List.foldl_cons]
  set md := List.intercalate (pyStr "\n\n") (resp.pages.map (·.markdown)) with hmd
  set st1 := pre.foldl (processImage ops) (md, ([] : List PyStr)) with hst1
  rw [processImage_false ops st1 img hb]
  have hwin : warningLine img.id <:+: st1.1 ++ warningLine img.id :=
    ⟨st1.1, [], by simp⟩
  have hcl : cleanId img.id = true := hclean img hmem
  have hpost : ∀ x ∈ post, cleanId x.id = true := by
    intro x hx
    apply hclean
    rw [hsplit]
    simp [hx]
  have hpres := foldl_processImage_preserves_warning ops (warningLine img.id)
    (warningLine_head _) (bang_not_mem_warningLine _ hcl) post
    (st1.1 ++ warningLine img.id, st1.2) hpost hwin
  have hcore : warningCore img.id
      <:+: (post.foldl (processImage ops) (st1.1 ++ warningLine img.id, st1.2)).1 :=
    (warningCore_infix_line img.id).trans hpres
  exact infix_pyStrip _ _ '[' ']' (warningCore_head _) (by decide)
    (warningCore_getLast _) (by decide) hcore

theorem assemble_dangling_placeholder (ops : RemoteOps) (resp : OCRResponse) (i : PyStr)
    (hi : cleanId i = true)
    (hall : ∀ im ∈ pagesImages resp.pages, cleanId im.id = true ∧ im.id ≠ i)
    (hocc : placeholder i <:+: List.intercalate (pyStr "\n\n") (resp.pages.map (·.markdown))) :
    placeholder i <:+: (assemble ops resp).2.1 := by
  rw [assemble_rendered]
  have hpres := foldl_processImage_preserves_placeholder ops i hi (pagesImages resp.pages)
    (List.intercalate (pyStr "\n\n") (resp.pages.map (·.markdown)), ([] : List PyStr))
    hall hocc
  exact infix_pyStrip _ _ '!' ')' (placeholder_head i) (by decide)
    (placeholder_getLast i) (by decide) hpres

theorem prefix_append_cancel : ∀ (P A B : PyStr), (P ++ A) <+: (P ++ B) → A <+: B := by
  intro P
  induction P with
  | nil => intro A B h; simpa using h
  | cons c P' ih =>
    intro A B h
    simp only [List.cons_append] at h
    exact ih A B (List.cons_prefix_cons.mp h).2

theorem clean_rparen_not_lead :
    ∀ (F i X : PyStr), cleanId i = true → ':' ∈ F → ')' ∉ F →
      ¬ (i ++ [')']) <+: (F ++ X) := by
  intro F
  induction F with
  | nil => intro i X _ hcol _ _; simp at hcol
  | cons f F' ih =>
    intro i X hi hcol hnp h
    cases i with
    | nil =>
      simp only [List.nil_append, List.cons_append] at h
      have hpf := (List.cons_prefix_cons.mp h).1
      exact hnp (by simp [← hpf])
    | cons c i' =>
      simp only [List.cons_append] at h
      obtain ⟨hcf, hrest⟩ := List.cons_prefix_cons.mp h
      by_cases hfc : f = ':'
      · have hc : cleanIdChar c = true := List.all_eq_true.mp hi c (List.mem_cons_self _ _)
        rw [hcf, hfc] at hc
        exact absurd hc (by decide)
      · have hcol' : ':' ∈ F' := by
          cases List.mem_cons.mp hcol with
          | inl h1 => exact absurd h1.symm hfc
          | inr h1 => exact h1
        have hi' : cleanId i' = true :=
          List.all_eq_true.mpr (fun z hz => List.all_eq_true.mp hi z (List.mem_cons_of_mem _ hz))
        have hnp' : ')' ∉ F' := fun hm => hnp (List.mem_cons_of_mem _ hm)
        exact ih i' X hi' hcol' hnp' (by simpa using hrest)

theorem substFor_eq (ops : RemoteOps) (i b : PyStr) :
    substFor ops i b = '!' :: '[' :: (i ++ ']' :: '(' :: (dataUrlFor ops b ++ [')'])) := by
  have h1 : pyStr "![" = ['!', '['] := rfl
  have h2 : pyStr "](" = [']', '('] := rfl
  have h3 : pyStr ")" = [')'] := rfl
  rw [substFor, h1, h2, h3]
  simp

theorem substFor_head (ops : RemoteOps) (i b : PyStr) :
    (substFor ops i b).head? = some '!' := by
  rw [substFor_eq]
  rfl

theorem bang_not_mem_substFor_tail (ops : RemoteOps) (i b : PyStr)
    (hi : cleanId i = true) (hre : '!' ∉ ops.pilReencodePNG (stripB64Header b)) :
    '!' ∉ (substFor ops i b).tail := by
  rw [substFor_eq]
  intro hm
  simp only [List.tail_cons, List.mem_cons, List.mem_append, dataUrlFor] at hm
  rcases hm with h | (h | h | h | ((h | h) | h)) <;>
    first
      | exact absurd h (by decide)
      | exact cleanId_not_mem i '!' hi (by decide) h
      | exact hre h

theorem placeholder_not_prefix_subst (ops : RemoteOps) (i i' b t : PyStr)
    (hi : cleanId i = true) (hi' : cleanId i' = true) :
    ¬ placeholder i <+: substFor ops i' b ++ t := by
  intro hp
  by_cases hii : i = i'
  · subst hii
    rw [placeholder_eq, substFor_eq] at hp
    simp only [List.cons_append] at hp
    obtain ⟨-, hp⟩ := List.cons_prefix_cons.mp hp
    obtain ⟨-, hp⟩ := List.cons_prefix_cons.mp hp
    have hre : (i ++ ']' :: '(' :: (dataUrlFor ops b ++ [')'])) ++ t
        = i ++ (']' :: '(' :: (dataUrlFor ops b ++ [')']) ++ t) := by simp
    rw [hre] at hp
    have hp2 := prefix_append_cancel i _ _ hp
    have hp4 : i ++ [')'] <+: dataUrlFor ops b ++ ')' :: t := by simpa using hp2
    rw [show dataUrlFor ops b ++ ')' :: t
        = pyStr "data:image/png;base64,"
          ++ (ops.pilReencodePNG (stripB64Header b) ++ ')' :: t) by
      simp [dataUrlFor]] at hp4
    exact clean_rparen_not_lead (pyStr "data:image/png;base64,") i _ hi (by decide)
      (by decide) hp4
  · rw [placeholder_eq, substFor_eq] at hp
    simp only [List.cons_append] at hp
    obtain ⟨-, hp⟩ := List.cons_prefix_cons.mp hp
    obtain ⟨-, hp⟩ := List.cons_prefix_cons.mp hp
    have hre : (i' ++ ']' :: '(' :: (dataUrlFor ops b ++ [')'])) ++ t
        = i' ++ ']' :: ('(' :: (dataUrlFor ops b ++ [')']) ++ t) := by simp
    rw [hre] at hp
    exact hii (clean_rbrack_inj i i' _ _ (cleanId_not_mem i ']' hi (by decide))
      (cleanId_not_mem i' ']' hi' (by decide)) hp)

theorem eq_head_cons_tail (w : PyStr) (h : Char) (hw : w.head? = some h) :
    w = h :: w.tail := by
  cases w with
  | nil => simp at hw
  | cons a t =>
    have ha : a = h := by simpa using hw
    rw [ha]
    rfl

theorem prefix_of_pyReplace (old new : PyStr) (h : Char) (h2 : new.head? = some h) :
    ∀ s t, h ∉ t → t <+: pyReplace old new s → t <+: s := by
  intro s
  induction s with
  | nil =>
    intro t _ hp
    rw [pyReplace_nil] at hp
    exact hp
  | cons c cs ih =>
    intro t hnt hp
    by_cases hmatch : old ≠ [] ∧ old <+: c :: cs
    · rw [pyReplace_cons_pos old new c cs hmatch.1 hmatch.2] at hp
      cases t with
      | nil => exact List.nil_prefix
      | cons d t' =>
        cases hnew : new with
        | nil => rw [hnew] at h2; simp at h2
        | cons n0 nt =>
          rw [hnew, List.cons_append] at hp
          have hd := (List.cons_prefix_cons.mp hp).1
          have hn0 : n0 = h := by rw [hnew] at h2; simpa using h2
          exact absurd (by simp [hd, hn0] : h ∈ d :: t') hnt
    · rw [pyReplace_cons_neg old new c cs hmatch] at hp
      cases t with
      | nil => exact List.nil_prefix
      | cons d t' =>
        obtain ⟨hdc, ht'⟩ := List.cons_prefix_cons.mp hp
        exact List.cons_prefix_cons.mpr
          ⟨hdc, ih t' (fun hm => hnt (List.mem_cons_of_mem _ hm)) ht'⟩

theorem pyReplace_removes_all (old new : PyStr) (h : Char)
    (h1 : old.head? = some h) (h2 : new.head? = some h)
    (h3 : h ∉ old.tail) (h4 : h ∉ new.tail)
    (h5 : ∀ t, ¬ old <+: new ++ t) :
    ∀ n s, s.length ≤ n → ¬ old <:+: pyReplace old new s := by
  intro n
  induction n with
  | zero =>
    intro s hl hinf
    have hs : s = [] := List.eq_nil_of_length_eq_zero (Nat.le_zero.mp hl)
    subst hs
    rw [pyReplace_nil] at hinf
    have : old = [] := by simpa using hinf
    rw [this] at h1
    simp at h1
  | succ n ih =>
    intro s hl hinf
    cases s with
    | nil =>
      rw [pyReplace_nil] at hinf
      have : old = [] := by simpa using hinf
      rw [this] at h1
      simp at h1
    | cons c cs =>
      by_cases hmatch : old ≠ [] ∧ old <+: c :: cs
      · obtain ⟨rest, hrest⟩ := hmatch.2
        rw [pyReplace_cons_pos old new c cs hmatch.1 hmatch.2] at hinf
        have hdrop : (c :: cs).drop old.length = rest := by rw [← hrest, List.drop_left]
        rw [hdrop] at hinf
        rcases infix_append_of_single_head old h h1 new (pyReplace old new rest) h2 h4 hinf
          with hp | hi2
        · exact h5 _ hp
        · have hrl : rest.length ≤ n := by
            have hlen : old.length + rest.length = cs.length + 1 := by
              have := congrArg List.length hrest
              simpa using this
            have hom : 1 ≤ old.length := by
              cases hcase : old with
              | nil => exact absurd hcase hmatch.1
              | cons _ _ => simp
            simp only [List.length_cons] at hl
            omega
          exact ih rest hrl hi2
      · rw [pyReplace_cons_neg old new c cs hmatch] at hinf
        rcases List.infix_cons_iff.mp hinf with hp | hi2
        · cases hold : old with
          | nil => rw [hold] at h1; simp at h1
          | cons o ot =>
            rw [hold] at hp
            obtain ⟨hoc, hot⟩ := List.cons_prefix_cons.mp hp
            have hot2 : ot <+: cs := prefix_of_pyReplace (o :: ot) new h h2 cs ot
              (by rw [hold] at h3; simpa using h3) hot
            exact hmatch ⟨by rw [hold]; simp,
              by rw [hold]; exact List.cons_prefix_cons.mpr ⟨hoc, hot2⟩⟩
        · have hcl : cs.length ≤ n := by
            simp only [List.length_cons] at hl
            omega
          exact ih cs hcl hi2

theorem infix_of_pyReplace (old new w : PyStr) (h : Char)
    (hw : w.head? = some h) (hwt : h ∉ w.tail)
    (h2 : new.head? = some h) (h4 : h ∉ new.tail)
    (h5 : ∀ t, ¬ w <+: new ++ t) :
    ∀ n s, s.length ≤ n → w <:+: pyReplace old new s → w <:+: s := by
  intro n
  induction n with
  | zero =>
    intro s hl hinf
    have hs : s = [] := List.eq_nil_of_length_eq_zero (Nat.le_zero.mp hl)
    subst hs
    rw [pyReplace_nil] at hinf
    exact hinf
  | succ n ih =>
    intro s hl hinf
    cases s with
    | nil =>
      rw [pyReplace_nil] at hinf
      exact hinf
    | cons c cs =>
      by_cases hmatch : old ≠ [] ∧ old <+: c :: cs
      · obtain ⟨rest, hrest⟩ := hmatch.2
        rw [pyReplace_cons_pos old new c cs hmatch.1 hmatch.2] at hinf
        have hdrop : (c :: cs).drop old.length = rest := by rw [← hrest, List.drop_left]
        rw [hdrop] at hinf
        rcases infix_append_of_single_head w h hw new (pyReplace old new rest) h2 h4 hinf
          with hp | hi2
        · exact absurd hp (h5 _)
        · have hrl : rest.length ≤ n := by
            have hlen : old.length + rest.length = cs.length + 1 := by
              have := congrArg List.length hrest
              simpa using this
            have hom : 1 ≤ old.length := by
              cases hcase : old with
              | nil => exact absurd hcase hmatch.1
              | cons _ _ => simp
            simp only [List.length_cons] at hl
            omega
          have hin := ih rest hrl hi2
          rw [← hrest]
          exact infix_append_left old hin
      · rw [pyReplace_cons_neg old new c cs hmatch] at hinf
        rcases List.infix_cons_iff.mp hinf with hp | hi2
        · have hwe := eq_head_cons_tail w h hw
          rw [hwe] at hp
          obtain ⟨hw0, hwt'⟩ := List.cons_prefix_cons.mp hp
          have hwt2 : w.tail <+: cs := prefix_of_pyReplace old new h h2 cs w.tail hwt hwt'
          exact List.infix_cons_iff.mpr (Or.inl
            (by rw [hwe]; exact List.cons_prefix_cons.mpr ⟨hw0, hwt2⟩))
        · have hcl : cs.length ≤ n := by
            simp only [List.length_cons] at hl
            omega
          exact List.infix_cons_iff.mpr (Or.inr (ih cs hcl hi2))

theorem not_infix_append_sep (w s z : PyStr) (h c0 : Char)
    (hw : w.head? = some h) (hz : h ∉ z)
    (hz0 : z.head? = some c0) (hc0 : c0 ∉ w)
    (hns : ¬ w <:+: s) : ¬ w <:+: s ++ z := by
  intro hinf
  obtain ⟨u, v, huv⟩ := hinf
  have huv2 : u ++ (w ++ v) = s ++ z := by simpa [List.append_assoc] using huv
  rcases List.append_eq_append_iff.mp huv2 with ⟨a, ha1, ha2⟩ | ⟨d, hd1, hd2⟩
  · rcases List.append_eq_append_iff.mp ha2 with ⟨b', hb1, hb2⟩ | ⟨e, he1, he2⟩
    · exact hns ⟨u, b', by rw [ha1, hb1]; simp⟩
    · cases e with
      | nil =>
        simp only [List.append_nil] at he1
        exact hns ⟨u, [], by rw [ha1, ← he1]; simp⟩
      | cons e0 e' =>
        have hze : e0 = c0 := by
          rw [he2] at hz0
          simpa using hz0
        exact hc0 (by rw [he1, ← hze]; simp)
  · have hwz : w <:+: z := ⟨d, v, by rw [hd2]; simp⟩
    have hhm : h ∈ w := by
      rw [eq_head_cons_tail w h hw]
      exact List.mem_cons_self _ _
    exact hz (hwz.subset hhm)

theorem rev_dropWhile_rev_front (p : Char → Bool) (l : PyStr) :
    (l.reverse.dropWhile p).reverse <+: l := by
  have h0 : l.reverse.dropWhile p <:+ l.reverse := List.dropWhile_suffix _
  simpa using List.reverse_prefix.mpr h0

theorem pyStrip_within (s : PyStr) : pyStrip s <:+: s := by
  have h1 : (s.dropWhile pyIsSpace) <:+ s := List.dropWhile_suffix _
  have h2 := rev_dropWhile_rev_front pyIsSpace (s.dropWhile pyIsSpace)
  exact (h2.isInfix).trans h1.isInfix

theorem foldl_preserves_no_token (ops : RemoteOps) (i : PyStr) (hi : cleanId i = true) :
    ∀ (imgs : List OCRImage) (st : PyStr × List PyStr),
      (∀ im ∈ imgs, cleanId im.id = true) →
      (∀ im ∈ imgs, ∀ b, im.image_base64 = some b →
        '!' ∉ ops.pilReencodePNG (stripB64Header b)) →
      ¬ placeholder i <:+: st.1 →
      ¬ placeholder i <:+: (imgs.foldl (processImage ops) st).1 := by
  intro imgs
  induction imgs with
  | nil => intro st _ _ h; exact h
  | cons img rest ih =>
    intro st hclean hre h
    rw [List.foldl_cons]
    apply ih _ (fun x hx => hclean x (List.mem_cons_of_mem _ hx))
      (fun x hx => hre x (List.mem_cons_of_mem _ hx))
    have hcl := hclean img (List.mem_cons_self _ _)
    cases ht : pyTruthyB64 img.image_base64 with
    | false =>
      rw [processImage_false ops st img ht]
      exact not_infix_append_sep (placeholder i) st.1 (warningLine img.id) '!' '\n'
        (placeholder_head i) (bang_not_mem_warningLine img.id hcl)
        (warningLine_head img.id)
        (not_mem_placeholder_of_clean i '\n' hi (by decide) (by decide) (by decide)
          (by decide) (by decide) (by decide))
        h
    | true =>
      obtain ⟨b, hb, hbe⟩ := (pyTruthyB64_true_iff _).mp ht
      rw [processImage_true ops st img b hb hbe]
      intro hinf
      exact h (infix_of_pyReplace (placeholder img.id) (substFor ops img.id b)
        (placeholder i) '!' (placeholder_head i)
        (bang_not_mem_placeholder_tail i hi)
        (substFor_head ops img.id b)
        (bang_not_mem_substFor_tail ops img.id b hcl (hre img (List.mem_cons_self _ _) b hb))
        (fun t => placeholder_not_prefix_subst ops i img.id b t hi hcl)
        st.1.length st.1 (Nat.le_refl _) hinf)

theorem assemble_token_removed (ops : RemoteOps) (resp : OCRResponse) (i : PyStr)
    (hi : cleanId i = true)
    (hclean : ∀ im ∈ pagesImages resp.pages, cleanId im.id = true)
    (hre : ∀ im ∈ pagesImages resp.pages, ∀ b, im.image_base64 = some b →
      '!' ∉ ops.pilReencodePNG (stripB64Header b))
    (im : OCRImage) (hmem : im ∈ pagesImages resp.pages) (hid : im.id = i)
    (ht : pyTruthyB64 im.image_base64 = true) :
    ¬ placeholder i <:+: (assemble ops resp).2.1 := by
  obtain ⟨pre, post, hsplit⟩ := List.append_of_mem hmem
  rw [assemble_rendered, hsplit, List.foldl_append, List.foldl_cons]
  set md := List.intercalate (pyStr "\n\n") (resp.pages.map (·.markdown)) with hmd
  set st1 := pre.foldl (processImage ops) (md, ([] : List PyStr)) with hst1
  obtain ⟨b, hb, hbe⟩ := (pyTruthyB64_true_iff _).mp ht
  rw [processImage_true ops st1 im b hb hbe]
  have hstep : ¬ placeholder i <:+: pyReplace (placeholder im.id) (substFor ops im.id b) st1.1 := by
    rw [hid]
    exact pyReplace_removes_all (placeholder i) (substFor ops i b) '!'
      (placeholder_head i) (substFor_head ops i b)
      (bang_not_mem_placeholder_tail i hi)
      (bang_not_mem_substFor_tail ops i b hi (hre im hmem b hb))
      (fun t => placeholder_not_prefix_subst ops i i b t hi hi)
      st1.1.length st1.1 (Nat.le_refl _)
  have hpost1 : ∀ x ∈ post, cleanId x.id = true := by
    intro x hx
    apply hclean
    rw [hsplit]
    simp [hx]
  have hpost2 : ∀ x ∈ post, ∀ b', x.image_base64 = some b' →
      '!' ∉ ops.pilReencodePNG (stripB64Header b') := by
    intro x hx
    apply hre
    rw [hsplit]
    simp [hx]
  have hafter := foldl_preserves_no_token ops i hi post
    (pyReplace (placeholder im.id) (substFor ops im.id b) st1.1,
     st1.2 ++ [stripB64Header b]) hpost1 hpost2 hstep
  intro hfin
  exact hafter (hfin.trans (pyStrip_within _))

/-- Decidable equality of Except values, used to evaluate the pipeline on
concrete inputs. -/
instance exceptDecEq {e : Type} {a : Type} [DecidableEq e] [DecidableEq a] :
    DecidableEq (Except e a) := fun x y =>
  match x, y with
  | .error u, .error v =>
    if h : u = v then .isTrue (by rw [h]) else .isFalse (fun hc => h (by injection hc))
  | .ok u, .ok v =>
    if h : u = v then .isTrue (by rw [h]) else .isFalse (fun hc => h (by injection hc))
  | .error _, .ok _ => .isFalse (fun hc => Except.noConfusion hc)
  | .ok _, .error _ => .isFalse (fun hc => Except.noConfusion hc)

/-- Decidable equality of pipeline results, assembled in small steps so
that instance search stays within its default size limits. -/
instance pipelineResultDecEq :
    DecidableEq (Except PyStr (PyStr × PyStr × List PyStr × List PyStr) × List NetCall) :=
  have h1 : DecidableEq (PyStr × PyStr × List PyStr × List PyStr) := inferInstance
  have h2 : DecidableEq (Except PyStr (PyStr × PyStr × List PyStr × List PyStr)) :=
    @exceptDecEq _ _ inferInstance h1
  have h3 : DecidableEq (List NetCall) := inferInstance
  @instDecidableEqProd _ _ h2 h3

/-- Ten distinct URLs, most recent first, for the history-capacity example. -/
def tenUrls : List PyStr :=
  [pyStr "http://u10", pyStr "http://u9", pyStr "http://u8", pyStr "http://u7",
   pyStr "http://u6", pyStr "http://u5", pyStr "http://u4", pyStr "http://u3",
   pyStr "http://u2", pyStr "http://u1"]

/-- C10: calling save_to_history with a None, empty, or whitespace-only
string performs no insertion, no reordering and no truncation: it returns
the currently persisted history sequence unchanged (src/app.py lines
41-43). -/
theorem C10_save_noop (hist : List PyStr) (url : Option PyStr)
    (h : url = none ∨ ∃ u, url = some u ∧ (pyStrip u).isEmpty = true) :
    save_to_history hist url = hist := by
  rcases h with rfl | ⟨u, rfl, hu⟩
  · rfl
  · simp [save_to_history, hu]

/-- Witness for C10 at url none, and at a whitespace-only url over a
non-empty persisted history. -/
theorem C10_save_noop_witness :
    ((none : Option PyStr) = none ∨
      ∃ u, (none : Option PyStr) = some u ∧ (pyStrip u).isEmpty = true) ∧
    save_to_history [pyStr "http://a"] none = [pyStr "http://a"] ∧
    save_to_history [pyStr "http://a"] (some (pyStr "   ")) = [pyStr "http://a"] :=
  ⟨Or.inl rfl,
   C10_save_noop [pyStr "http://a"] none (Or.inl rfl),
   C10_save_noop [pyStr "http://a"] (some (pyStr "   "))
     (Or.inr ⟨pyStr "   ", rfl, by decide⟩)⟩

/-- C9 counterexample: on a persisted history already holding the URL
twice, save removes only the first occurrence, so a duplicate remains in
the saved result, against the claim that no duplicate remains for every
current history sequence. -/
theorem C9_counterexample :
    save_to_history [pyStr "http://u", pyStr "http://u"] (some (pyStr "http://u"))
      = [pyStr "http://u", pyStr "http://u"] ∧
    pyStr "http://u" ∈ (save_to_history [pyStr "http://u", pyStr "http://u"]
      (some (pyStr "http://u"))).tail := by
  exact ⟨by decide, by decide⟩

/-- C9 (amended): for every non-blank URL, save puts the URL at the front,
truncates to at most 10 entries and keeps the other entries in their
relative order; the URL is removed only at its first old occurrence, so no
duplicate remains provided the current history held the URL at most once;
saving http://a, http://b, http://a from empty yields [http://a, http://b],
and an 11th distinct URL drops the oldest entry. -/
theorem C9_save_front (hist : List PyStr) (u : PyStr)
    (h : (pyStrip u).isEmpty = false) :
    (save_to_history hist (some u)).head? = some u ∧
    (save_to_history hist (some u)).length ≤ 10 ∧
    (save_to_history hist (some u)).tail.Sublist hist ∧
    (hist.count u ≤ 1 → u ∉ (save_to_history hist (some u)).tail) ∧
    save_to_history (save_to_history (save_to_history [] (some (pyStr "http://a")))
        (some (pyStr "http://b"))) (some (pyStr "http://a"))
      = [pyStr "http://a", pyStr "http://b"] ∧
    save_to_history tenUrls (some (pyStr "http://u11"))
      = pyStr "http://u11" :: tenUrls.dropLast := by
  have hne : u.isEmpty = false := by
    cases hcase : u.isEmpty
    · rfl
    · exfalso
      have hnil : u = [] := List.isEmpty_iff.mp hcase
      subst hnil
      exact absurd h (by decide)
  have hsave : save_to_history hist (some u)
      = (u :: (if u ∈ hist then hist.erase u else hist)).take 10 := by
    simp [save_to_history, hne, h]
  refine ⟨?_, ?_, ?_, ?_, by decide, by decide⟩
  · rw [hsave, List.take_succ_cons]
    rfl
  · rw [hsave]
    exact List.length_take_le _ _
  · rw [hsave, List.take_succ_cons, List.tail_cons]
    by_cases hmem : u ∈ hist
    · rw [if_pos hmem]
      exact (List.take_sublist _ _).trans (List.erase_sublist _ _)
    · rw [if_neg hmem]
      exact List.take_sublist _ _
  · intro hcount
    rw [hsave, List.take_succ_cons, List.tail_cons]
    intro hin
    by_cases hmem : u ∈ hist
    · rw [if_pos hmem] at hin
      have hin2 : u ∈ hist.erase u := (List.take_sublist _ _).subset hin
      have hpos : 1 ≤ hist.count u := List.count_pos_iff.mpr hmem
      have hzero : (hist.erase u).count u = 0 := by
        rw [List.count_erase_self]
        omega
      exact absurd hin2 (List.count_eq_zero.mp hzero)
    · rw [if_neg hmem] at hin
      exact hmem ((List.take_sublist _ _).subset hin)

/-- Witness for C9 applying the theorem with http://a saved over the
history [http://b]. -/
theorem C9_save_front_witness :
    (pyStrip (pyStr "http://a")).isEmpty = false ∧
    (save_to_history [pyStr "http://b"] (some (pyStr "http://a"))).head?
      = some (pyStr "http://a") ∧
    pyStr "http://a" ∉ (save_to_history [pyStr "http://b"] (some (pyStr "http://a"))).tail :=
  ⟨by decide,
   (C9_save_front [pyStr "http://b"] (pyStr "http://a") (by decide)).1,
   (C9_save_front [pyStr "http://b"] (pyStr "http://a") (by decide)).2.2.2.1 (by decide)⟩

/-- C7: classification of a URL-mode input yields an image source exactly
when the lower-cased URL ends in .jpg, .jpeg or .png, and otherwise a
generic document source with no further validation (src/app.py lines
74-81). -/
theorem C7_classification (u : PyStr) :
    (classify_url u = .image_url (pyStrip u) ∨ classify_url u = .document_url (pyStrip u)) ∧
    (classify_url u = .image_url (pyStrip u) ↔
      ((pyStr ".jpg").isSuffixOf (pyLower u) = true ∨
       (pyStr ".jpeg").isSuffixOf (pyLower u) = true ∨
       (pyStr ".png").isSuffixOf (pyLower u) = true)) ∧
    (¬ ((pyStr ".jpg").isSuffixOf (pyLower u) = true ∨
        (pyStr ".jpeg").isSuffixOf (pyLower u) = true ∨
        (pyStr ".png").isSuffixOf (pyLower u) = true) →
      classify_url u = .document_url (pyStrip u)) := by
  have hany : (VALID_IMAGE_EXTENSIONS.any (fun ext => ext.isSuffixOf (pyLower u))) = true ↔
      ((pyStr ".jpg").isSuffixOf (pyLower u) = true ∨
       (pyStr ".jpeg").isSuffixOf (pyLower u) = true ∨
       (pyStr ".png").isSuffixOf (pyLower u) = true) := by
    simp [VALID_IMAGE_EXTENSIONS]
  by_cases hc : (VALID_IMAGE_EXTENSIONS.any (fun ext => ext.isSuffixOf (pyLower u))) = true
  · have himg : classify_url u = .image_url (pyStrip u) := by
      unfold classify_url
      rw [if_pos hc]
    exact ⟨Or.inl himg, ⟨fun _ => hany.mp hc, fun _ => himg⟩,
      fun hno => absurd (hany.mp hc) hno⟩
  · have hdoc : classify_url u = .document_url (pyStrip u) := by
      unfold classify_url
      rw [if_neg hc]
    refine ⟨Or.inr hdoc, ⟨fun hcontra => ?_, fun hd => absurd (hany.mpr hd) hc⟩,
      fun _ => hdoc⟩
    rw [hdoc] at hcontra
    exact absurd hcontra (by simp)

/-- Witness for C7: a mixed-case image URL classifies as an image source, a
.pdf URL as a document source. -/
theorem C7_classification_witness :
    classify_url (pyStr "http://x/Photo.JPeG") = .image_url (pyStrip (pyStr "http://x/Photo.JPeG")) ∧
    classify_url (pyStr "http://x/report.pdf") = .document_url (pyStrip (pyStr "http://x/report.pdf")) :=
  ⟨(C7_classification (pyStr "http://x/Photo.JPeG")).2.1.mpr (by decide),
   (C7_classification (pyStr "http://x/report.pdf")).2.2 (by decide)⟩

/-- C6: the plain-text output equals the stripped blank-line join of the
page markdown fields, in page order, and depends only on those markdown
fields: any change to the images or to the codec/remote oracle leaves it
unchanged. -/
theorem C6_plaintext :
    (∀ (ops : RemoteOps) (resp : OCRResponse),
      (assemble ops resp).1
        = pyStrip (List.intercalate (pyStr "\n\n") (resp.pages.map (·.markdown)))) ∧
    (∀ (ops1 ops2 : RemoteOps) (r1 r2 : OCRResponse),
      r1.pages.map (·.markdown) = r2.pages.map (·.markdown) →
      (assemble ops1 r1).1 = (assemble ops2 r2).1) := by
  constructor
  · intro ops resp
    rfl
  · intro ops1 ops2 r1 r2 h
    show pyStrip (List.intercalate (pyStr "\n\n") (r1.pages.map (·.markdown)))
      = pyStrip (List.intercalate (pyStr "\n\n") (r2.pages.map (·.markdown)))
    rw [h]

/-- Witness for C6: two responses with the same markdown but different
images and oracles produce the same plain text. -/
theorem C6_plaintext_witness :
    (OCRResponse.mk [⟨pyStr "hello", [⟨pyStr "a", some (pyStr "QUJD")⟩]⟩]).pages.map (·.markdown)
      = (OCRResponse.mk [⟨pyStr "hello", []⟩]).pages.map (·.markdown) ∧
    (assemble noNetOps ⟨[⟨pyStr "hello", [⟨pyStr "a", some (pyStr "QUJD")⟩]⟩]⟩).1
      = (assemble noNetOps ⟨[⟨pyStr "hello", []⟩]⟩).1 :=
  ⟨rfl, (C6_plaintext).2 noNetOps noNetOps _ _ rfl⟩

/-- C3 counterexample: on the payload "x,y,z" the assembler hands "y" (the
segment between the first and second comma, split(",")[1]) to the decoder,
not the remainder "z" after the last comma that the claim describes. -/
theorem C3_counterexample :
    (processImage noNetOps ([], []) ⟨pyStr "img", some (pyStr "x,y,z")⟩).2 = [pyStr "y"] ∧
    stripAfterLastComma (pyStr "x,y,z") = pyStr "z" ∧
    pyStr "y" ≠ pyStr "z" := by
  exact ⟨by decide, by decide, by decide⟩

/-- C3 (amended): for a payload containing at least one comma the assembler
decodes split(",")[1], the segment after the first comma and before the
second; when the payload contains exactly one comma — the standard data-URL
shape — this coincides with the remainder after the last comma. -/
theorem C3_strip_segment (ops : RemoteOps) (st : PyStr × List PyStr) (i b : PyStr)
    (h : b.contains ',' = true) :
    (processImage ops st ⟨i, some b⟩).2 = st.2 ++ [(splitChar ',' b).getD 1 []] ∧
    ((splitChar ',' b).length = 2 →
      (splitChar ',' b).getD 1 [] = stripAfterLastComma b) := by
  constructor
  · have hbe : b.isEmpty = false := by
      cases b with
      | nil => simp at h
      | cons _ _ => rfl
    have hsb : stripB64Header b = (splitChar ',' b).getD 1 [] := by
      unfold stripB64Header
      rw [if_pos h]
    rw [processImage_true ops st ⟨i, some b⟩ b rfl hbe, hsb]
  · intro hlen
    obtain ⟨x, y, hxy⟩ := List.length_eq_two.mp hlen
    unfold stripAfterLastComma
    rw [if_pos h, hxy]
    rfl

/-- Witness for C3 on a standard data URL payload. -/
theorem C3_strip_segment_witness :
    (pyStr "data:image/png;base64,QUJD").contains ',' = true ∧
    (processImage noNetOps ([], []) ⟨pyStr "im", some (pyStr "data:image/png;base64,QUJD")⟩).2
      = [] ++ [(splitChar ',' (pyStr "data:image/png;base64,QUJD")).getD 1 []] :=
  ⟨by decide,
   (C3_strip_segment noNetOps ([], []) (pyStr "im") (pyStr "data:image/png;base64,QUJD")
     (by decide)).1⟩

theorem not_occ_of_head_not_mem (old x : PyStr) (h : Char) (hh : old.head? = some h)
    (hx : h ∉ x) : ¬ old <:+: x := by
  intro hinf
  cases old with
  | nil => simp at hh
  | cons a t =>
    have ha : a = h := by simpa using hh
    exact hx (ha ▸ hinf.subset (List.mem_cons_self a t))

theorem pyReplace_joinSep (old new : PyStr) (h : Char) (hh : old.head? = some h) :
    ∀ xs : List PyStr, (∀ x ∈ xs, h ∉ x) →
      pyReplace old new (joinSep old xs) = joinSep new xs := by
  intro xs
  induction xs with
  | nil => intro _; rfl
  | cons x rest ih =>
    intro hmen
    cases rest with
    | nil =>
      show pyReplace old new x = x
      exact pyReplace_of_no_occurrence old new x
        (not_occ_of_head_not_mem old x h hh (hmen x (List.mem_cons_self _ _)))
    | cons y rest' =>
      show pyReplace old new (x ++ old ++ joinSep old (y :: rest'))
        = x ++ new ++ joinSep new (y :: rest')
      rw [pyReplace_head_split old new h hh x _ (hmen x (List.mem_cons_self _ _))]
      rw [ih (fun z hz => hmen z (List.mem_cons_of_mem _ hz))]

/-- C5: for an image with a truthy base64 payload, substitution is literal
text replacement keyed on the id over the whole markdown: whenever the
rendered markdown is joinSep (placeholder id) segments — segments free of
exclamation marks, so the token occurs exactly (segments.length - 1) times,
be it zero, one, two or more — every occurrence is replaced by the
identical inline-data-URL form and the decoded payload is appended to the
image list; and when the token does not occur at all, the markdown is left
unchanged while the payload is still appended, with no error. -/
theorem C5_substitution :
    (∀ (ops : RemoteOps) (st : PyStr × List PyStr) (i b : PyStr) (segs : List PyStr),
      b.isEmpty = false →
      (∀ x ∈ segs, '!' ∉ x) →
      st.1 = joinSep (placeholder i) segs →
      processImage ops st ⟨i, some b⟩
        = (joinSep (substFor ops i b) segs, st.2 ++ [stripB64Header b])) ∧
    (∀ (ops : RemoteOps) (st : PyStr × List PyStr) (i b : PyStr),
      b.isEmpty = false →
      ¬ placeholder i <:+: st.1 →
      processImage ops st ⟨i, some b⟩ = (st.1, st.2 ++ [stripB64Header b])) := by
  constructor
  · intro ops st i b segs hbe hsegs hmd
    rw [processImage_true ops st ⟨i, some b⟩ b rfl hbe, hmd,
      pyReplace_joinSep (placeholder i) (substFor ops i b) '!' (placeholder_head i)
        segs hsegs]
  · intro ops st i b hbe hno
    rw [processImage_true ops st ⟨i, some b⟩ b rfl hbe,
      pyReplace_of_no_occurrence (placeholder i) (substFor ops i b) st.1 hno]

/-- Witness for C5: a single-occurrence markdown (the specification's
round-trip example) and a two-occurrence markdown are both fully
substituted, and a token-free markdown is unchanged while its payload is
collected. -/
theorem C5_substitution_witness :
    (pyStr "QUJD").isEmpty = false ∧
    processImage noNetOps
        (joinSep (placeholder (pyStr "imgA")) [pyStr "intro ", pyStr " outro"], [])
        ⟨pyStr "imgA", some (pyStr "QUJD")⟩
      = (joinSep (substFor noNetOps (pyStr "imgA") (pyStr "QUJD"))
          [pyStr "intro ", pyStr " outro"],
         [] ++ [stripB64Header (pyStr "QUJD")]) ∧
    processImage noNetOps
        (joinSep (placeholder (pyStr "fig1")) [pyStr "See ", pyStr " and ", pyStr " end"], [])
        ⟨pyStr "fig1", some (pyStr "QUJD")⟩
      = (joinSep (substFor noNetOps (pyStr "fig1") (pyStr "QUJD"))
          [pyStr "See ", pyStr " and ", pyStr " end"],
         [] ++ [stripB64Header (pyStr "QUJD")]) ∧
    (¬ placeholder (pyStr "fig1") <:+: pyStr "plain text") ∧
    processImage noNetOps (pyStr "plain text", []) ⟨pyStr "fig1", some (pyStr "QUJD")⟩
      = (pyStr "plain text", [] ++ [stripB64Header (pyStr "QUJD")]) :=
  ⟨by decide,
   (C5_substitution).1 noNetOps _ (pyStr "imgA") (pyStr "QUJD")
     [pyStr "intro ", pyStr " outro"] (by decide) (by decide) rfl,
   (C5_substitution).1 noNetOps _ (pyStr "fig1") (pyStr "QUJD")
     [pyStr "See ", pyStr " and ", pyStr " end"] (by decide) (by decide) rfl,
   by decide,
   (C5_substitution).2 noNetOps (pyStr "plain text", []) (pyStr "fig1") (pyStr "QUJD")
     (by decide) (by decide)⟩

/-- C8: an OCRImage with no base64 payload makes the assembler append
exactly the warning line "\n\n[Image Warning: No base64 data for id]" to
the rendered markdown; for any response over identifier-charset ids the
bracketed warning text survives into the final rendered output; and the
plain text stays the stripped pre-substitution concatenation. -/
theorem C8_warning :
    (∀ (ops : RemoteOps) (st : PyStr × List PyStr) (i : PyStr),
      processImage ops st ⟨i, none⟩ = (st.1 ++ warningLine i, st.2)) ∧
    (∀ (ops : RemoteOps) (resp : OCRResponse) (img : OCRImage),
      img ∈ pagesImages resp.pages → img.image_base64 = none →
      (∀ im ∈ pagesImages resp.pages, cleanId im.id = true) →
      warningCore img.id <:+: (assemble ops resp).2.1) ∧
    (∀ (ops : RemoteOps) (resp : OCRResponse),
      (assemble ops resp).1
        = pyStrip (List.intercalate (pyStr "\n\n") (resp.pages.map (·.markdown)))) := by
  refine ⟨?_, ?_, ?_⟩
  · intro ops st i
    exact processImage_false ops st ⟨i, none⟩ rfl
  · intro ops resp img hmem hb hclean
    exact assemble_warning_present ops resp img hmem (by rw [hb]; rfl) hclean
  · intro ops resp
    rfl

/-- Witness for C8 on a one-page response whose single image has no
payload. -/
theorem C8_warning_witness :
    ((⟨pyStr "im0", none⟩ : OCRImage)
        ∈ pagesImages [⟨pyStr "Page one", [⟨pyStr "im0", none⟩]⟩]) ∧
    warningCore (pyStr "im0")
      <:+: (assemble noNetOps ⟨[⟨pyStr "Page one", [⟨pyStr "im0", none⟩]⟩]⟩).2.1 :=
  ⟨by decide,
   (C8_warning).2.1 noNetOps ⟨[⟨pyStr "Page one", [⟨pyStr "im0", none⟩]⟩]⟩
     ⟨pyStr "im0", none⟩ (by decide) rfl (by decide)⟩

/-- C4 counterexample: one page whose markdown holds the token ![a](a) and
an empty image list: the assembler leaves the token in place, inserts no
data URL and appends no warning — a placeholder token silently left as a
dead reference. -/
theorem C4_counterexample :
    (assemble noNetOps ⟨[⟨pyStr "![a](a)", []⟩]⟩).2.1 = pyStr "![a](a)" ∧
    ¬ pyStr "data:" <:+: (assemble noNetOps ⟨[⟨pyStr "![a](a)", []⟩]⟩).2.1 ∧
    ¬ pyStr "[Image Warning" <:+: (assemble noNetOps ⟨[⟨pyStr "![a](a)", []⟩]⟩).2.1 := by
  exact ⟨by decide, by decide, by decide⟩

/-- C4 (amended): over identifier-charset ids (and re-encoded payloads free
of the marker character), every placeholder token whose id belongs to some
OCRImage of the response is accounted for — an image with a truthy
(non-empty) payload eliminates every occurrence of its token from the
rendered markdown through the data-URL substitution, and an image with a
missing or empty payload appends a warning line that survives to the final
output; but a token whose id matches no OCRImage of the response is
silently left in place in the rendered markdown as a dead reference. -/
theorem C4_token_fate (ops : RemoteOps) (resp : OCRResponse) (i : PyStr)
    (hi : cleanId i = true)
    (hclean : ∀ im ∈ pagesImages resp.pages, cleanId im.id = true)
    (hre : ∀ im ∈ pagesImages resp.pages, ∀ b, im.image_base64 = some b →
      '!' ∉ ops.pilReencodePNG (stripB64Header b)) :
    (∀ im ∈ pagesImages resp.pages, im.id = i → pyTruthyB64 im.image_base64 = true →
      ¬ placeholder i <:+: (assemble ops resp).2.1) ∧
    (∀ im ∈ pagesImages resp.pages, im.id = i → pyTruthyB64 im.image_base64 = false →
      warningCore i <:+: (assemble ops resp).2.1) ∧
    ((∀ im ∈ pagesImages resp.pages, im.id ≠ i) →
      placeholder i <:+: List.intercalate (pyStr "\n\n") (resp.pages.map (·.markdown)) →
      placeholder i <:+: (assemble ops resp).2.1) := by
  refine ⟨?_, ?_, ?_⟩
  · intro im hmem hid ht
    exact assemble_token_removed ops resp i hi hclean hre im hmem hid ht
  · intro im hmem hid ht
    have h := assemble_warning_present ops resp im hmem ht hclean
    rwa [hid] at h
  · intro hnone hocc
    exact assemble_dangling_placeholder ops resp i hi
      (fun im hm => ⟨hclean im hm, hnone im hm⟩) hocc

/-- Witness for C4 on three concrete one-page responses: token imgA with a
matching truthy image is gone from the output, token imgB with a matching
empty-payload image gets the warning, and token imgC with only an unrelated
image survives untouched as a dead reference. -/
theorem C4_token_fate_witness :
    (¬ placeholder (pyStr "imgA")
      <:+: (assemble noNetOps
        ⟨[⟨pyStr "x ![imgA](imgA) y", [⟨pyStr "imgA", some (pyStr "QUJD")⟩]⟩]⟩).2.1) ∧
    warningCore (pyStr "imgB")
      <:+: (assemble noNetOps
        ⟨[⟨pyStr "see ![imgB](imgB)", [⟨pyStr "imgB", some []⟩]⟩]⟩).2.1 ∧
    placeholder (pyStr "imgC")
      <:+: (assemble noNetOps
        ⟨[⟨pyStr "![imgC](imgC)", [⟨pyStr "other", some (pyStr "QUJD")⟩]⟩]⟩).2.1 := by
  refine ⟨?_, ?_, ?_⟩
  · exact (C4_token_fate noNetOps
      ⟨[⟨pyStr "x ![imgA](imgA) y", [⟨pyStr "imgA", some (pyStr "QUJD")⟩]⟩]⟩
      (pyStr "imgA") (by decide) (by decide)
      (fun im hm b hb => by
        simp only [pagesImages, List.append_nil, List.mem_singleton] at hm
        subst hm
        have hb' : b = pyStr "QUJD" := by simpa using hb.symm
        subst hb'
        decide)).1
      ⟨pyStr "imgA", some (pyStr "QUJD")⟩ (by decide) rfl (by decide)
  · exact (C4_token_fate noNetOps
      ⟨[⟨pyStr "see ![imgB](imgB)", [⟨pyStr "imgB", some []⟩]⟩]⟩
      (pyStr "imgB") (by decide) (by decide)
      (fun im hm b hb => by
        simp only [pagesImages, List.append_nil, List.mem_singleton] at hm
        subst hm
        have hb' : b = [] := by simpa using hb.symm
        subst hb'
        decide)).2.1
      ⟨pyStr "imgB", some []⟩ (by decide) rfl (by decide)
  · exact (C4_token_fate noNetOps
      ⟨[⟨pyStr "![imgC](imgC)", [⟨pyStr "other", some (pyStr "QUJD")⟩]⟩]⟩
      (pyStr "imgC") (by decide) (by decide)
      (fun im hm b hb => by
        simp only [pagesImages, List.append_nil, List.mem_singleton] at hm
        subst hm
        have hb' : b = pyStr "QUJD" := by simpa using hb.symm
        subst hb'
        decide)).2.2
      (by decide) (by decide)

/-- C1 counterexample: with no credential set, do_ocr returns the
missing-credential tuple before any network call, but its second output
element (the markdown slot) is a non-empty instruction string — not the
empty value the claim requires of every failure path. -/
theorem C1_counterexample :
    do_ocr noNetOps none [] (pyStr "URL") (some (pyStr "http://example.com/doc.pdf")) none
      = (.ok (pyStr "Error: MISTRAL API key not found in environment variables.",
              pyStr "Please set your MISTRAL API key as an environment variable named 'MISTRAL'.",
              [], []), []) ∧
    pyStr "Please set your MISTRAL API key as an environment variable named 'MISTRAL'." ≠ [] := by
  exact ⟨by decide, by decide⟩

/-- C1 (amended): every failure path of do_ocr returns a tuple whose first
element is that path's error message and whose image list is empty; the
markdown element is empty on every such path except the missing-credential
one, which instead carries a fixed instruction string.  The network calls
issued before the failure depend on the path: none for missing credential,
invalid input or unsupported file type (a missing credential short-circuits
before any network call for every input); exactly the failed OCR call for
an OCR failure in URL mode or on an uploaded image file; upload, signed
URL, then the failed OCR call for an OCR failure on an uploaded .pdf. -/
theorem C1_failure_paths (ops : RemoteOps) (hist : List PyStr) :
    (∀ (key : Option PyStr) (it : PyStr) (url : Option PyStr) (file : Option FileUpload),
      (match key with | none => true | some k => k.isEmpty) = true →
      do_ocr ops key hist it url file
        = (.ok (pyStr "Error: MISTRAL API key not found in environment variables.",
                pyStr "Please set your MISTRAL API key as an environment variable named 'MISTRAL'.",
                [], hist), [])) ∧
    (∀ (k : PyStr) (url : Option PyStr) (file : Option FileUpload),
      k.isEmpty = false →
      (match url with | none => true | some u => u.isEmpty || (pyStrip u).isEmpty) = true →
      do_ocr ops (some k) hist (pyStr "URL") url file
        = (.ok (pyStr "Please provide a valid URL.", [], [], hist), [])) ∧
    (∀ (k : PyStr) (url : Option PyStr),
      k.isEmpty = false →
      do_ocr ops (some k) hist (pyStr "File upload") url none
        = (.ok (pyStr "Please upload a file.", [], [], hist), [])) ∧
    (∀ (k : PyStr) (it : PyStr) (url : Option PyStr) (file : Option FileUpload),
      k.isEmpty = false → it ≠ pyStr "URL" → it ≠ pyStr "File upload" →
      do_ocr ops (some k) hist it url file
        = (.ok (pyStr "Invalid input type.", [], [], hist), [])) ∧
    (∀ (k : PyStr) (url : Option PyStr) (f : FileUpload),
      k.isEmpty = false →
      splitextExt (pyLower f.name) ∉ VALID_DOCUMENT_EXTENSIONS →
      splitextExt (pyLower f.name) ∉ VALID_IMAGE_EXTENSIONS →
      do_ocr ops (some k) hist (pyStr "File upload") url (some f)
        = (.ok (unsupportedMsg, [], [], hist), [])) ∧
    (∀ (k u : PyStr) (file : Option FileUpload) (e : PyStr),
      k.isEmpty = false → u.isEmpty = false → (pyStrip u).isEmpty = false →
      ops.ocrProcess (classify_url u) k = .error e →
      do_ocr ops (some k) hist (pyStr "URL") (some u) file
        = (.ok (pyStr "Error processing OCR: " ++ e, [], [],
                save_to_history hist (some u)), [.ocr])) ∧
    (∀ (k : PyStr) (url : Option PyStr) (f : FileUpload) (s : PyStr)
        (tr : List NetCall) (e : PyStr),
      k.isEmpty = false →
      splitextExt (pyLower f.name) = pyStr ".pdf" →
      upload_pdf ops f.content (pyBasename (pyLower f.name)) k = (.ok s, tr) →
      ops.ocrProcess (.document_url s) k = .error e →
      do_ocr ops (some k) hist (pyStr "File upload") url (some f)
        = (.ok (pyStr "Error processing OCR: " ++ e, [], [], hist), tr ++ [.ocr])) ∧
    (∀ (k : PyStr) (url : Option PyStr) (f : FileUpload) (e : PyStr),
      k.isEmpty = false →
      splitextExt (pyLower f.name) ∈ VALID_IMAGE_EXTENSIONS →
      ops.ocrProcess
          (.image_url (pyStr "data:image/png;base64," ++ ops.imageFileToPngB64 f.content)) k
        = .error e →
      do_ocr ops (some k) hist (pyStr "File upload") url (some f)
        = (.ok (pyStr "Error processing OCR: " ++ e, [], [], hist), [.ocr])) := by
  refine ⟨?_, ?_, ?_, ?_, ?_, ?_, ?_, ?_⟩
  · intro key it url file hkey
    simp [do_ocr, hkey]
  · intro k url file hk hurl
    simp [do_ocr, hk, hurl]
  · intro k url hk
    simp [do_ocr, hk, show pyStr "File upload" ≠ pyStr "URL" from by decide]
  · intro k it url file hk h1 h2
    simp [do_ocr, hk, h1, h2]
  · intro k url f hk hd hi
    simp [do_ocr, hk, hd, hi, show pyStr "File upload" ≠ pyStr "URL" from by decide]
  · intro k u file e hk hu1 hu2 hocr
    simp [do_ocr, finish_ocr, hk, hu1, hu2, hocr]
  · intro k url f s tr e hk hext hup hocr
    have hmem : splitextExt (pyLower f.name) ∈ VALID_DOCUMENT_EXTENSIONS := by
      rw [hext]
      simp [VALID_DOCUMENT_EXTENSIONS]
    simp [do_ocr, finish_ocr, hk, hmem, hup, hocr,
      show pyStr "File upload" ≠ pyStr "URL" from by decide]
  · intro k url f e hk hmem hocr
    have hnd : splitextExt (pyLower f.name) ∉ VALID_DOCUMENT_EXTENSIONS := by
      intro hd
      simp only [VALID_DOCUMENT_EXTENSIONS, List.mem_singleton] at hd
      rw [hd] at hmem
      exact absurd hmem (by decide)
    simp [do_ocr, finish_ocr, hk, hnd, hmem, hocr,
      show pyStr "File upload" ≠ pyStr "URL" from by decide]

/-- Witness for C1 exercising the missing-credential, blank-URL,
unsupported-extension and all three OCR-failure paths (URL, .pdf upload,
image upload) at concrete inputs. -/
theorem C1_failure_paths_witness :
    do_ocr noNetOps none [] (pyStr "URL") (some (pyStr "http://a.png")) none
      = (.ok (pyStr "Error: MISTRAL API key not found in environment variables.",
              pyStr "Please set your MISTRAL API key as an environment variable named 'MISTRAL'.",
              [], []), []) ∧
    do_ocr noNetOps (some (pyStr "k")) [] (pyStr "URL") (some (pyStr "  ")) none
      = (.ok (pyStr "Please provide a valid URL.", [], [], []), []) ∧
    do_ocr noNetOps (some (pyStr "k")) [] (pyStr "File upload") none
        (some ⟨pyStr "notes.txt", []⟩)
      = (.ok (unsupportedMsg, [], [], []), []) ∧
    do_ocr noNetOps (some (pyStr "k")) [] (pyStr "URL") (some (pyStr "http://a.png")) none
      = (.ok (pyStr "Error processing OCR: " ++ pyStr "no network", [], [],
              save_to_history [] (some (pyStr "http://a.png"))), [.ocr]) ∧
    do_ocr uploadOnlyOps (some (pyStr "k")) [] (pyStr "File upload") none
        (some ⟨pyStr "report.pdf", [1, 2]⟩)
      = (.ok (pyStr "Error processing OCR: " ++ pyStr "ocr down", [], [], []),
         [NetCall.upload, NetCall.signedUrl] ++ [NetCall.ocr]) ∧
    do_ocr noNetOps (some (pyStr "k")) [] (pyStr "File upload") none
        (some ⟨pyStr "pic.png", [7]⟩)
      = (.ok (pyStr "Error processing OCR: " ++ pyStr "no network", [], [], []), [.ocr]) :=
  ⟨(C1_failure_paths noNetOps []).1 none (pyStr "URL") (some (pyStr "http://a.png")) none rfl,
   (C1_failure_paths noNetOps []).2.1 (pyStr "k") (some (pyStr "  ")) none (by decide) (by decide),
   (C1_failure_paths noNetOps []).2.2.2.2.1 (pyStr "k") none ⟨pyStr "notes.txt", []⟩
     (by decide) (by decide) (by decide),
   (C1_failure_paths noNetOps []).2.2.2.2.2.1 (pyStr "k") (pyStr "http://a.png") none
     (pyStr "no network") (by decide) (by decide) (by decide) rfl,
   (C1_failure_paths uploadOnlyOps []).2.2.2.2.2.2.1 (pyStr "k") none
     ⟨pyStr "report.pdf", [1, 2]⟩ (pyStr "https://signed/fid-1")
     [NetCall.upload, NetCall.signedUrl] (pyStr "ocr down")
     (by decide) (by decide) rfl rfl,
   (C1_failure_paths noNetOps []).2.2.2.2.2.2.2 (pyStr "k") none
     ⟨pyStr "pic.png", [7]⟩ (pyStr "no network")
     (by decide) (by decide) rfl⟩

/-- C2 counterexample: an upload failure for an uploaded .pdf is not caught
and not converted into any message tuple: do_ocr re-raises it (the result
is the Except.error of the underlying failure, after exactly the failed
upload call, and is not an ok tuple of message and empty collections). -/
theorem C2_counterexample :
    do_ocr noNetOps (some (pyStr "key")) [] (pyStr "File upload") none
        (some ⟨pyStr "report.pdf", [1, 2, 3]⟩)
      = (.error (pyStr "upload refused"), [.upload]) ∧
    (do_ocr noNetOps (some (pyStr "key")) [] (pyStr "File upload") none
        (some ⟨pyStr "report.pdf", [1, 2, 3]⟩)).1.isOk = false := by
  exact ⟨by decide, by decide⟩

/-- C2 (amended): for every uploaded file whose (lower-cased) name has
extension .pdf, any failure of the upload/signed-URL exchange propagates
out of do_ocr as the raised error itself, uncaught: the pipeline produces
no UploadFailed message and no result tuple on this path. -/
theorem C2_upload_uncaught (ops : RemoteOps) (hist : List PyStr) (k : PyStr)
    (url : Option PyStr) (f : FileUpload) (e : PyStr) (tr : List NetCall)
    (hk : k.isEmpty = false)
    (hext : splitextExt (pyLower f.name) = pyStr ".pdf")
    (hup : upload_pdf ops f.content (pyBasename (pyLower f.name)) k = (.error e, tr)) :
    do_ocr ops (some k) hist (pyStr "File upload") url (some f) = (.error e, tr) := by
  have hmem : splitextExt (pyLower f.name) ∈ VALID_DOCUMENT_EXTENSIONS := by
    rw [hext]
    simp [VALID_DOCUMENT_EXTENSIONS]
  simp [do_ocr, hk, hmem, hup, show pyStr "File upload" ≠ pyStr "URL" from by decide]

/-- Witness for C2 on a mixed-case .pdf upload against an oracle whose
upload endpoint fails. -/
theorem C2_upload_uncaught_witness :
    splitextExt (pyLower (pyStr "Report.PDF")) = pyStr ".pdf" ∧
    do_ocr noNetOps (some (pyStr "key")) [] (pyStr "File upload") none
        (some ⟨pyStr "Report.PDF", [9, 8]⟩)
      = (.error (pyStr "upload refused"), [.upload]) :=
  ⟨by decide,
   C2_upload_uncaught noNetOps [] (pyStr "key") none ⟨pyStr "Report.PDF", [9, 8]⟩
     (pyStr "upload refused") [.upload] (by decide) (by decide) (by decide)⟩
